import Mathlib

/-!
Shallow embedding of the `signal_tl::signal` core (Sample, Signal, push_back,
at, simplify, resize, shift, resize_shift, synchronize) from
`src/signal.cc` / `src/signal.hh`.  C++ `double` is modelled by `ℚ` (exact
arithmetic; `q / 0 = 0` by the Lean convention).  Fallible operations
(`throw`, out-of-bounds iterator dereference, i.e. undefined behaviour)
are modelled with `Except SignalError`.
-/

namespace SignalTL

/-- Error outcomes of the embedded operations: `invalidArgument` and
`domainError` model the two `std::invalid_argument` throws of the source;
`outOfBounds` marks a C++ iterator dereference outside the valid range
(undefined behaviour in the source). -/
inductive SignalError where
  | invalidArgument : SignalError
  | domainError : SignalError
  | outOfBounds : SignalError
  deriving DecidableEq, Repr

/-- A single breakpoint of a piecewise-linear function: `struct Sample`
with fields `time`, `value` and `derivative` (the cached slope of the
segment leaving this sample). -/
structure Sample where
  time : ℚ
  value : ℚ
  derivative : ℚ
  deriving DecidableEq, Repr

/-- `Sample::interpolate(t)`: `value + derivative * (t - time)`. -/
def Sample.interpolate (s : Sample) (t : ℚ) : ℚ :=
  s.value + s.derivative * (t - s.time)

/-- `struct Signal`: an ordered sequence of samples. -/
structure Signal where
  samples : List Sample
  deriving DecidableEq, Repr

/-- `Signal::begin_time()`: `samples.empty() ? 0.0 : samples.front().time`. -/
def Signal.begin_time (sig : Signal) : ℚ :=
  ((sig.samples.head?).map Sample.time).getD 0

/-- `Signal::end_time()`: `samples.empty() ? 0.0 : samples.back().time`. -/
def Signal.end_time (sig : Signal) : ℚ :=
  ((sig.samples.getLast?).map Sample.time).getD 0

/-- The retroactive derivative patch done by `Signal::push_back`: the last
element of the list gets `derivative = (s.value - last.value) / (s.time -
last.time)`; all other elements are unchanged. -/
def patchLast : List Sample → Sample → List Sample
  | [], _ => []
  | [a], s => [⟨a.time, a.value, (s.value - a.value) / (s.time - a.time)⟩]
  | a :: b :: rest, s => a :: patchLast (b :: rest) s

/-- `Signal::push_back(Sample)`: throws `invalid_argument` when
`sample.time < end_time()` (note: the source uses strict `<`, so a sample
timestamped exactly at `end_time` is accepted); otherwise patches the last
sample's derivative and appends `Sample{time, value, 0.0}`. -/
def Signal.push_back (sig : Signal) (s : Sample) : Except SignalError Signal :=
  match sig.samples with
  | [] => .ok ⟨[⟨s.time, s.value, 0⟩]⟩
  | a :: rest =>
    if s.time < sig.end_time then
      .error .invalidArgument
    else
      .ok ⟨patchLast (a :: rest) s ++ [⟨s.time, s.value, 0⟩]⟩

/-- A sequence of `push_back` calls starting from `sig`, stopping at the
first failure.  This is the construction path used by the copy, bulk and
iterator constructors of `Signal` (all of which loop `push_back`). -/
def pushList (sig : Signal) : List Sample → Except SignalError Signal
  | [] => .ok sig
  | s :: rest =>
    match sig.push_back s with
    | .error e => .error e
    | .ok sig' => pushList sig' rest

/-- The bulk constructor `Signal(points, times)`: throws
`invalid_argument` on a length mismatch, otherwise appends
`Sample{times[i], points[i], 0}` one by one via `push_back`. -/
def Signal.fromPointsTimes (points times : List ℚ) : Except SignalError Signal :=
  if points.length ≠ times.length then .error .invalidArgument
  else pushList ⟨[]⟩ ((times.zip points).map fun p => ⟨p.1, p.2, 0⟩)

/-- Index returned by `std::lower_bound` over the samples with comparator
`a.time < b.time`: the first index whose sample time is `≥ t`
(equal to `samples.length` when there is none, i.e. the `end()` iterator). -/
def lowerBoundIdx : List Sample → ℚ → Nat
  | [], _ => 0
  | s :: rest, t => if t ≤ s.time then 0 else lowerBoundIdx rest t + 1

/-- `Signal::at(t)`.  The source checks `begin_time() > t && end_time() < t`
(note the conjunction) and throws `invalid_argument` if it holds; then it
dereferences the `lower_bound` iterator: if that iterator is `end()` the
dereference is out of bounds (modelled as `.error .outOfBounds`); if the
found sample is at exactly `t` it is returned unchanged, otherwise the
result is `Sample{t, it->interpolate(t), it->derivative}`. -/
def Signal.atE (sig : Signal) (t : ℚ) : Except SignalError Sample :=
  if sig.begin_time > t ∧ sig.end_time < t then
    .error .domainError
  else
    match sig.samples[lowerBoundIdx sig.samples t]? with
    | none => .error .outOfBounds
    | some s => if s.time = t then .ok s else .ok ⟨t, s.interpolate t, s.derivative⟩

/-- Loop body of `Signal::simplify`: a sample `s` is appended (via
`push_back`) when the output is still empty, or when the output's last
sample does not reproduce `s` exactly (`back().interpolate(s.time) !=
s.value || back().derivative != s.derivative`); otherwise it is skipped. -/
def simplifyLoop : List Sample → Signal → Except SignalError Signal
  | [], sig => .ok sig
  | s :: rest, sig =>
    match sig.samples.getLast? with
    | none => sig.push_back s >>= simplifyLoop rest
    | some new_s =>
      if new_s.interpolate s.time = s.value ∧ new_s.derivative = s.derivative then
        simplifyLoop rest sig
      else
        sig.push_back s >>= simplifyLoop rest

/-- `Signal::simplify()`: run the loop from an empty output, then, if the
output ends earlier than the input, re-append the input's last sample
(`this->back()`, an out-of-bounds access if the input were empty — which
cannot happen under the guard, since both end times are then 0). -/
def Signal.simplify (x : Signal) : Except SignalError Signal := do
  let sig ← simplifyLoop x.samples ⟨[]⟩
  if x.end_time ≠ sig.end_time then
    match x.samples.getLast? with
    | none => .error .outOfBounds
    | some b => sig.push_back b
  else
    .ok sig

/-- The first branch condition of the `Signal::resize` loop:
`std::next(i) != end() && std::next(i)->time > start`. -/
def nextCrosses (rest : List Sample) (start : ℚ) : Prop :=
  match rest with
  | [] => False
  | nxt :: _ => start < nxt.time

instance (rest : List Sample) (start : ℚ) : Decidable (nextCrosses rest start) :=
  match rest with
  | [] => isFalse id
  | _ :: _ => inferInstanceAs (Decidable (_ < _))

/-- Loop body of `Signal::resize`.  `prev` is `std::prev(i)` (none when `i`
is the first iterator).  Mirrors the source line by line: if the next
sample exists and is timed after `start`, append `Sample{start,
i->interpolate(start)}`; else if `start <= t <= end` keep the sample; else
if `t > end` either append `Sample{end, prev->interpolate(end)}` (when a
previous sample exists with time `< end`) and continue, or break; else
drop the sample and continue. -/
def resizeLoop (start e : ℚ) : List Sample → Option Sample → Signal → Except SignalError Signal
  | [], _, sig => .ok sig
  | i :: rest, prev, sig =>
    if nextCrosses rest start then
      sig.push_back ⟨start, i.interpolate start, 0⟩ >>= resizeLoop start e rest (some i)
    else if start ≤ i.time ∧ i.time ≤ e then
      sig.push_back i >>= resizeLoop start e rest (some i)
    else if e < i.time then
      match prev with
      | none => .ok sig
      | some p =>
        if p.time < e then
          sig.push_back ⟨e, p.interpolate e, 0⟩ >>= resizeLoop start e rest (some i)
        else
          .ok sig
    else
      resizeLoop start e rest (some i) sig

/-- `Signal::resize(start, end, fill)`: if `begin_time() > start`, first
append `Sample{start, fill, 0.0}` to the fresh output, then run the loop
over all samples. -/
def Signal.resize (x : Signal) (start e fill : ℚ) : Except SignalError Signal :=
  (if x.begin_time > start then
      Signal.push_back ⟨[]⟩ ⟨start, fill, 0⟩
    else
      Except.ok ⟨[]⟩) >>=
    resizeLoop start e x.samples none

/-- `Signal::shift(dt)`: the source builds the copy through the sequence
constructor `make_shared<Signal>(this->samples)` (which re-appends every
sample via `push_back`, recomputing derivatives) and then adds `dt` to
every sample's time in place. -/
def Signal.shift (x : Signal) (dt : ℚ) : Except SignalError Signal := do
  let sig ← pushList ⟨[]⟩ x.samples
  pure ⟨sig.samples.map fun s => ⟨s.time + dt, s.value, s.derivative⟩⟩

/-- `Signal::resize_shift(start, end, fill, dt)`: `resize` then add `dt`
to every sample time of the result in place. -/
def Signal.resize_shift (x : Signal) (start e fill dt : ℚ) : Except SignalError Signal := do
  let out ← x.resize start e fill
  pure ⟨out.samples.map fun s => ⟨s.time + dt, s.value, s.derivative⟩⟩

/-- `back()` of a sample vector; dereferencing it on an empty vector is
undefined behaviour in the source, modelled as `.error .outOfBounds`. -/
def lastE (l : List Sample) : Except SignalError Sample :=
  match l.getLast? with
  | none => .error .outOfBounds
  | some s => .ok s

/-- The merge loop of `synchronize` (the `while (i != x->end() && j !=
y->end())` loop).  `xv, yv` are the output vectors, `px, py` are
`std::prev(i)` / `std::prev(j)` (none when the cursor sits at `begin()`,
where the source's `std::prev` dereference would be out of bounds), and
the two lists are the remaining cursor ranges.  `fuel` dominates the loop
length (each iteration consumes at least one element, so
`xs.length + ys.length` suffices); the fuel-exhausted case is unreachable
for such a fuel and is marked `.error .outOfBounds`. -/
def syncLoop : Nat → List Sample → List Sample → Option Sample → Option Sample →
    List Sample → List Sample → Except SignalError (List Sample × List Sample)
  | _, xv, yv, _, _, [], _ => .ok (xv, yv)
  | _, xv, yv, _, _, _ :: _, [] => .ok (xv, yv)
  | 0, _, _, _, _, _ :: _, _ :: _ => .error .outOfBounds
  | fuel + 1, xv, yv, px, py, a :: xs, b :: ys =>
    if a.time = b.time then
      syncLoop fuel (xv ++ [a]) (yv ++ [b]) (some a) (some b) xs ys
    else if a.time < b.time then
      match py with
      | none => .error .outOfBounds
      | some p =>
        syncLoop fuel (xv ++ [a]) (yv ++ [⟨a.time, p.interpolate a.time, 0⟩])
          (some a) py xs (b :: ys)
    else
      match px with
      | none => .error .outOfBounds
      | some p =>
        syncLoop fuel (xv ++ [⟨b.time, p.interpolate b.time, 0⟩]) (yv ++ [b])
          px (some b) (a :: xs) ys

/-- The vector-building part of `synchronize(x, y)` (everything before the
two output `Signal`s are constructed): initial `lower_bound` cursors, the
two leading interpolated samples, the merge loop and the two tail fixups.
Note the source's leading sample for `yv` takes its derivative from
`std::prev(i)` (the `x` cursor), faithfully reproduced here. -/
def syncVectors (x y : Signal) : Except SignalError (List Sample × List Sample) := do
  let bt := max x.begin_time y.begin_time
  let ix := lowerBoundIdx x.samples bt
  let jy := lowerBoundIdx y.samples bt
  let xi ← match x.samples[ix]? with
    | none => Except.error SignalError.outOfBounds
    | some s => Except.ok s
  let xv ← if bt < xi.time ∧ ix ≠ 0 then
      match x.samples[ix - 1]? with
      | none => Except.error SignalError.outOfBounds
      | some p => Except.ok [Sample.mk bt (p.interpolate bt) p.derivative]
    else
      Except.ok []
  let yj ← match y.samples[jy]? with
    | none => Except.error SignalError.outOfBounds
    | some s => Except.ok s
  let yv ← if bt < yj.time ∧ jy ≠ 0 then
      match y.samples[jy - 1]?, (if ix = 0 then none else x.samples[ix - 1]?) with
      | some pj, some pi => Except.ok [Sample.mk bt (pj.interpolate bt) pi.derivative]
      | _, _ => Except.error SignalError.outOfBounds
    else
      Except.ok []
  let px := if ix = 0 then none else x.samples[ix - 1]?
  let py := if jy = 0 then none else y.samples[jy - 1]?
  let xs := x.samples.drop ix
  let ys := y.samples.drop jy
  let r ← syncLoop (xs.length + ys.length) xv yv px py xs ys
  let xb ← lastE r.1
  let yb ← lastE r.2
  let yv' := if yb.time < xb.time then r.2 ++ [⟨xb.time, yb.interpolate xb.time, 0⟩] else r.2
  let yb' ← lastE yv'
  let xv' := if xb.time < yb'.time then r.1 ++ [⟨yb'.time, xb.interpolate yb'.time, 0⟩] else r.1
  pure (xv', yv')

/-- `synchronize(x, y)`: build the two sample vectors, then construct the
two output `Signal`s from them (the sequence constructor re-appends every
sample via `push_back`). -/
def synchronize (x y : Signal) : Except SignalError (Signal × Signal) := do
  let v ← syncVectors x y
  let sx ← pushList ⟨[]⟩ v.1
  let sy ← pushList ⟨[]⟩ v.2
  pure (sx, sy)

/-- The breakpoint time sequence of a signal. -/
def breakTimes (sig : Signal) : List ℚ := sig.samples.map Sample.time

/-- The documented well-formedness invariant of a signal: sample times are
strictly increasing. -/
def strictlyIncreasingTimes (l : List Sample) : Prop :=
  List.Chain' (fun a b => a.time < b.time) l

instance : DecidablePred strictlyIncreasingTimes := fun l =>
  inferInstanceAs (Decidable (List.Chain' _ l))

/-! ## Theorems -/

/-- Claim C1: `synchronize` is claimed to return signals with identical
breakpoint time sequences over the overlap.  The spec's scenario does hold
(first conjunct), but the universal postcondition fails: for
`x = [(0,0),(10,10)]` and `y = [(5,5),(6,6)]` the code synthesizes a
leading sample for `x'` at `t = 5` and then the merge loop emits a second
sample at `t = 5`, so `x'` has breakpoint times `[5,5,6]` while `y'` has
`[5,6]` — the sequences are not identical. -/
theorem C1_synchronize_not_aligned :
    synchronize ⟨[⟨0,0,1⟩, ⟨1,1,-1⟩, ⟨2,0,0⟩]⟩ ⟨[⟨0,1,0⟩, ⟨2,1,0⟩]⟩ =
      .ok (⟨[⟨0,0,1⟩, ⟨1,1,-1⟩, ⟨2,0,0⟩]⟩, ⟨[⟨0,1,0⟩, ⟨1,1,0⟩, ⟨2,1,0⟩]⟩) ∧
    synchronize ⟨[⟨0,0,1⟩, ⟨10,10,0⟩]⟩ ⟨[⟨5,5,1⟩, ⟨6,6,0⟩]⟩ =
      .ok (⟨[⟨5,5,0⟩, ⟨5,5,1⟩, ⟨6,6,0⟩]⟩, ⟨[⟨5,5,1⟩, ⟨6,6,0⟩]⟩) ∧
    breakTimes ⟨[⟨5,5,0⟩, ⟨5,5,1⟩, ⟨6,6,0⟩]⟩ ≠ breakTimes ⟨[⟨5,5,1⟩, ⟨6,6,0⟩]⟩ := by
  refine ⟨?_, ?_, ?_⟩ <;>
    norm_num [synchronize, syncVectors, syncLoop, lastE, lowerBoundIdx, pushList,
      Signal.begin_time, Signal.end_time, Signal.push_back, patchLast, Sample.interpolate,
      breakTimes, bind, Except.bind, pure, Except.pure]

/-- Claim C2: `at(t)` is claimed to interpolate along the slope cached on
the sample strictly before `t`.  After `push_back(0,0); push_back(2,4)`
the first sample's derivative is indeed 2 (first conjunct), but
`at(1)` returns value 4, not 2: the code interpolates backwards from the
sample at-or-after `t` (the right endpoint, whose cached slope is 0),
contradicting its own doc comment ("interpolates from the closest sample
less than t"). -/
theorem C2_at_uses_right_endpoint :
    pushList ⟨[]⟩ [⟨0,0,0⟩, ⟨2,4,0⟩] = .ok ⟨[⟨0,0,2⟩, ⟨2,4,0⟩]⟩ ∧
    (Signal.mk [⟨0,0,2⟩, ⟨2,4,0⟩]).atE 1 = .ok ⟨1,4,0⟩ ∧ (4 : ℚ) ≠ 2 := by
  refine ⟨?_, ?_, by norm_num⟩ <;>
    norm_num [pushList, Signal.push_back, patchLast, Signal.atE, Signal.begin_time,
      Signal.end_time, lowerBoundIdx, Sample.interpolate]

/-- Claim C3: `at(t)` is claimed to fail with a domain error for `t`
outside `[begin_time, end_time]`.  The source's bounds check
`begin_time > t && end_time < t` can never hold for a well-formed signal:
for the signal `[(0,0),(2,4)]`, `at(-1)` returns an extrapolated sample
instead of failing, and `at(3)` dereferences the past-the-end iterator
(out of bounds), never producing the documented error. -/
theorem C3_at_no_domain_error :
    (Signal.mk [⟨0,0,2⟩, ⟨2,4,0⟩]).atE (-1) = .ok ⟨-1,-2,2⟩ ∧
    (Signal.mk [⟨0,0,2⟩, ⟨2,4,0⟩]).atE 3 = .error .outOfBounds := by
  constructor <;>
    norm_num [Signal.atE, Signal.begin_time, Signal.end_time, lowerBoundIdx,
      Sample.interpolate]

/-- Claim C4: `push_back` is claimed to reject a sample whose time equals
the current `end_time`.  The source only checks `sample.time < end_time()`,
so pushing `(0,5)` onto a signal ending at time 0 succeeds and appends a
second sample at time 0 (the patched derivative divides by zero),
contradicting the source's own error message about strict monotonic
increase. -/
theorem C4_push_back_equal_time_accepted :
    (Signal.mk [⟨0,0,0⟩]).push_back ⟨0,5,0⟩ = .ok ⟨[⟨0,0,0⟩, ⟨0,5,0⟩]⟩ := by
  norm_num [Signal.push_back, patchLast, Signal.end_time]

/-- Claim C5: every publicly constructed signal is claimed to have
strictly increasing sample times.  A sequence of two successful
`push_back` calls at the same time instant (allowed because the check is
`<` instead of `<=`) produces the sample times `[1, 1]`, which are not
strictly increasing. -/
theorem C5_strict_increase_violated :
    pushList ⟨[]⟩ [⟨1,1,0⟩, ⟨1,2,0⟩] = .ok ⟨[⟨1,1,0⟩, ⟨1,2,0⟩]⟩ ∧
    ¬ strictlyIncreasingTimes [⟨1,1,0⟩, ⟨1,2,0⟩] := by
  constructor
  · norm_num [pushList, Signal.push_back, patchLast, Signal.end_time]
  · intro h
    rcases h with _ | ⟨h1, _⟩
    exact absurd h1 (by norm_num)

/-- Claim C6: every publicly constructed signal is claimed to satisfy the
derivative-caching invariant `derivative == (next.value - value) /
(next.time - time)` (0 on the final sample).  Because `push_back` accepts
a sample timed exactly at `end_time` (the C4 slip), the public path
`push_back(2,3); push_back(Sample{2,7})` succeeds, and the retroactive
patch computes the first sample's derivative as `(7 - 3) / (2 - 2)` — a
division by zero, since the two samples share time 2.  Under the source's
IEEE doubles this stores NaN, and the invariant comparison `NaN == NaN`
is false, so the invariant fails on a publicly constructible signal.
(This exact-rational embedding totalises the division as `q / 0 = 0`, so
the violation is exhibited here as the successful equal-time append
together with the zero denominator of the patch expression, not as the
NaN itself.) -/
theorem C6_patch_divides_by_zero :
    pushList ⟨[]⟩ [⟨2,3,0⟩, ⟨2,7,0⟩] = .ok ⟨[⟨2,3,0⟩, ⟨2,7,0⟩]⟩ ∧
    patchLast [⟨2,3,0⟩] ⟨2,7,0⟩ = [⟨2, 3, (7 - 3) / (2 - 2)⟩] ∧
    (⟨2,7,0⟩ : Sample).time - (⟨2,3,0⟩ : Sample).time = 0 := by
  refine ⟨?_, ?_, by norm_num⟩
  · norm_num [pushList, Signal.push_back, patchLast, Signal.end_time]
  · norm_num [patchLast]

/-- Claim C7: `resize(start, end, fill)` is claimed to keep verbatim every
sample with `start <= time <= end`.  On the signal `[(0,0),(1,1),(2,0)]`
with `resize(0, 2, 0)`, the in-range sample `(1,1)` is not kept: the
loop's first branch (which omits the "current sample is timed below
start" test its comment describes) fires for every non-final sample, so
the result is `[(0,0),(0,2),(2,0)]`, which contains no sample with time 1
and value 1. -/
theorem C7_resize_drops_in_range_sample :
    (Signal.mk [⟨0,0,1⟩, ⟨1,1,-1⟩, ⟨2,0,0⟩]).resize 0 2 0 =
      .ok ⟨[⟨0,0,0⟩, ⟨0,2,-1⟩, ⟨2,0,0⟩]⟩ ∧
    (⟨1,1,-1⟩ : Sample) ∈ (Signal.mk [⟨0,0,1⟩, ⟨1,1,-1⟩, ⟨2,0,0⟩]).samples ∧
    ∀ s ∈ [(⟨0,0,0⟩ : Sample), ⟨0,2,-1⟩, ⟨2,0,0⟩], ¬(s.time = 1 ∧ s.value = 1) := by
  refine ⟨?_, by simp, ?_⟩
  · norm_num [Signal.resize, resizeLoop, nextCrosses, Signal.begin_time, Signal.end_time,
      Signal.push_back, patchLast, Sample.interpolate, bind, Except.bind, pure, Except.pure]
  · intro s hs
    fin_cases hs <;> norm_num

/-- When every sample is timed strictly before `t`, the lower-bound index
is the past-the-end position. -/
theorem lowerBoundIdx_eq_length (t : ℚ) :
    ∀ l : List Sample, (∀ s ∈ l, s.time < t) → lowerBoundIdx l t = l.length := by
  intro l
  induction l with
  | nil => intro _; rfl
  | cons a rest ih =>
    intro h
    have ha : ¬ t ≤ a.time := not_le.mpr (h a (List.mem_cons_self a rest))
    simp only [lowerBoundIdx, if_neg ha, List.length_cons]
    rw [ih fun s hs => h s (List.mem_cons_of_mem a hs)]

/-- In a time-sorted sample list whose last element is timed before `t`,
every element is timed before `t`. -/
theorem times_lt_of_chain (t : ℚ) :
    ∀ l : List Sample, List.Chain' (fun a b => a.time < b.time) l →
      (∀ b, l.getLast? = some b → b.time < t) → ∀ s ∈ l, s.time < t := by
  intro l
  induction l with
  | nil => simp
  | cons a rest ih =>
    intro hch hlast s hs
    cases rest with
    | nil =>
      rcases List.mem_singleton.mp hs with rfl
      exact hlast s (by simp)
    | cons b rest' =>
      rcases List.chain'_cons.mp hch with ⟨hab, hch'⟩
      have hrest : ∀ u ∈ b :: rest', u.time < t := by
        refine ih hch' fun c hc => hlast c ?_
        simpa using hc
      rcases List.mem_cons.mp hs with rfl | hs'
      · exact hab.trans (hrest b (List.mem_cons_self b rest'))
      · exact hrest s hs'

/-- Claim C10: for a non-empty well-formed signal and `t` beyond
`end_time` (hence beyond `begin_time`), the bounds check of `at` does not
trigger and the lower-bound iterator is past-the-end, so the dereference
reaches the out-of-bounds branch rather than a result or the documented
error; `at` on the empty signal reaches the same out-of-bounds branch. -/
theorem C10_at_past_end_out_of_bounds :
    (∀ (sig : Signal) (t : ℚ), strictlyIncreasingTimes sig.samples →
      sig.samples ≠ [] → sig.begin_time < t → sig.end_time < t →
      sig.atE t = .error .outOfBounds) ∧
    (∀ t : ℚ, Signal.atE ⟨[]⟩ t = .error .outOfBounds) := by
  constructor
  · intro sig t hsort hne hb he
    have hlast : ∀ b, sig.samples.getLast? = some b → b.time < t := by
      intro b hbl
      have : sig.end_time = b.time := by simp [Signal.end_time, hbl]
      rw [← this]; exact he
    have hall : ∀ s ∈ sig.samples, s.time < t :=
      times_lt_of_chain t sig.samples hsort hlast
    have hidx : lowerBoundIdx sig.samples t = sig.samples.length :=
      lowerBoundIdx_eq_length t sig.samples hall
    have hnone : sig.samples[lowerBoundIdx sig.samples t]? = none := by
      rw [hidx]; exact List.getElem?_eq_none le_rfl
    unfold Signal.atE
    rw [if_neg fun hcond => absurd hcond.1 (not_lt.mpr hb.le), hnone]
  · intro t
    unfold Signal.atE
    rw [if_neg]
    · rfl
    · rintro ⟨h1, h2⟩
      have h1' : t < 0 := by simpa [Signal.begin_time] using h1
      have h2' : 0 < t := by simpa [Signal.end_time] using h2
      exact lt_irrefl t (h1'.trans h2')

/-- Witness for C10: a concrete query past the end of a one-sample signal
and a concrete query on the empty signal both reach the out-of-bounds
branch. -/
theorem C10_witness :
    (Signal.mk [⟨0,0,0⟩]).atE 1 = .error .outOfBounds ∧
    Signal.atE ⟨[]⟩ 2 = .error .outOfBounds :=
  ⟨C10_at_past_end_out_of_bounds.1 ⟨[⟨0,0,0⟩]⟩ 1
      (by simp [strictlyIncreasingTimes]) (by simp)
      (by norm_num [Signal.begin_time]) (by norm_num [Signal.end_time]),
    C10_at_past_end_out_of_bounds.2 2⟩

/-- `patchLast` preserves the time and value of every element. -/
theorem patchLast_times (s : Sample) :
    ∀ l : List Sample, ∀ u ∈ patchLast l s, ∃ w ∈ l, u.time = w.time ∧ u.value = w.value := by
  intro l
  induction l with
  | nil => simp [patchLast]
  | cons a rest ih =>
    cases rest with
    | nil =>
      intro u hu
      simp only [patchLast, List.mem_singleton] at hu
      subst hu
      exact ⟨a, by simp, rfl, rfl⟩
    | cons b rest' =>
      intro u hu
      simp only [patchLast] at hu
      rcases List.mem_cons.mp hu with rfl | hu'
      · exact ⟨u, List.mem_cons_self u (b :: rest'), rfl, rfl⟩
      · obtain ⟨w, hw, hwt, hwv⟩ := ih u hu'
        exact ⟨w, List.mem_cons_of_mem a hw, hwt, hwv⟩

/-- `patchLast` keeps the head's time and value. -/
theorem patchLast_head (a : Sample) (t : List Sample) (s : Sample) :
    ∃ d2 t2, patchLast (a :: t) s = ⟨a.time, a.value, d2⟩ :: t2 := by
  cases t with
  | nil => exact ⟨(s.value - a.value) / (s.time - a.time), [], rfl⟩
  | cons b t' => exact ⟨a.derivative, patchLast (b :: t') s, rfl⟩

/-- Explicit success equation for `push_back` when the appended time is
not below the signal's end time. -/
theorem push_back_ok_eq (acc : Signal) (v : Sample) (h : ¬ v.time < acc.end_time) :
    acc.push_back v = .ok ⟨patchLast acc.samples v ++ [⟨v.time, v.value, 0⟩]⟩ := by
  unfold Signal.push_back
  split
  next heq => rw [heq]; rfl
  next a rest heq => rw [if_neg h, heq]

/-- Every sample of a `push_back` result carries either an original
sample's time or the appended sample's time. -/
theorem push_back_times {acc : Signal} {v : Sample} {acc' : Signal}
    (h : acc.push_back v = .ok acc') :
    ∀ s ∈ acc'.samples, (∃ w ∈ acc.samples, s.time = w.time) ∨ s.time = v.time := by
  unfold Signal.push_back at h
  split at h
  next heq =>
    injection h with h
    subst h
    intro s hs
    simp only [List.mem_singleton] at hs
    subst hs
    right; rfl
  next a rest heq =>
    split at h
    · exact Except.noConfusion h
    · injection h with h
      subst h
      intro s hs
      rcases List.mem_append.mp hs with hs' | hs'
      · obtain ⟨w, hw, hwt, _⟩ := patchLast_times v (a :: rest) s hs'
        exact Or.inl ⟨w, by rw [heq]; exact hw, hwt⟩
      · simp only [List.mem_singleton] at hs'
        subst hs'
        right; rfl

/-- Appending a new sample after patching keeps the head's time/value. -/
theorem head_shape_after_push (start fill d : ℚ) (tail : List Sample) (v w : Sample) :
    ∃ d2 t2, patchLast (⟨start, fill, d⟩ :: tail) v ++ [w] = ⟨start, fill, d2⟩ :: t2 := by
  obtain ⟨d2, t2, heq⟩ := patchLast_head ⟨start, fill, d⟩ tail v
  refine ⟨d2, t2 ++ [w], ?_⟩
  rw [heq]
  rfl

/-- In a time-sorted sample list, every element is timed at or before the
last element. -/
theorem times_le_last_of_chain :
    ∀ l : List Sample, List.Chain' (fun a b => a.time < b.time) l →
      ∀ s ∈ l, ∀ b, l.getLast? = some b → s.time ≤ b.time := by
  intro l
  induction l with
  | nil => simp
  | cons a rest ih =>
    intro hch s hs b hb
    cases rest with
    | nil =>
      rcases List.mem_singleton.mp hs with rfl
      simp only [List.getLast?_singleton, Option.some.injEq] at hb
      subst hb
      exact le_refl _
    | cons c rest2 =>
      rcases List.chain'_cons.mp hch with ⟨hac, hch'⟩
      have hb' : (c :: rest2).getLast? = some b := by
        simpa [List.getLast?_cons_cons] using hb
      rcases List.mem_cons.mp hs with rfl | hs'
      · have hcb : c.time ≤ b.time :=
          ih hch' c (List.mem_cons_self c rest2) b hb'
        exact (hac.trans_le hcb).le
      · exact ih hch' s hs' b hb'

/-- In a time-sorted sample list whose head is timed after `start`, every
element is timed after `start`. -/
theorem times_gt_start_of_chain (start : ℚ) :
    ∀ l : List Sample, List.Chain' (fun a b => a.time < b.time) l →
      (∀ a, l.head? = some a → start < a.time) → ∀ s ∈ l, start < s.time := by
  intro l
  induction l with
  | nil => simp
  | cons a rest ih =>
    intro hch hhead s hs
    have ha : start < a.time := hhead a rfl
    rcases List.mem_cons.mp hs with rfl | hs'
    · exact ha
    · rcases List.chain'_cons'.mp hch with ⟨hrel, hch'⟩
      refine ih hch' ?_ s hs'
      intro b hb
      exact ha.trans (hrel b hb)

/-- Querying `at` exactly at the head sample's time returns the head
sample. -/
theorem atE_at_head {y : Signal} {t0 v0 d0 : ℚ} {tail : List Sample}
    (h : y.samples = ⟨t0, v0, d0⟩ :: tail) : y.atE t0 = .ok ⟨t0, v0, d0⟩ := by
  have hb : y.begin_time = t0 := by simp [Signal.begin_time, h]
  unfold Signal.atE
  rw [if_neg fun hc => absurd hc.1 (by rw [hb]; exact lt_irrefl t0), h]
  simp [lowerBoundIdx]

/-- Behaviour of the `resize` loop when every input sample is timed after
`start` and the accumulator starts as the single fill sample (possibly
followed by further samples all timed at `start`): the loop never fails,
the head sample keeps time `start` and value `fill`, and every output
sample is timed at `start`, at an in-range input time, or at `e` (the
latter only when some input sample is timed after `e`). -/
theorem resizeLoop_left_extend (start e fill : ℚ) :
    ∀ (l : List Sample) (prev : Option Sample) (acc : Signal),
      (∀ s ∈ l, start < s.time) →
      (∀ p, prev = some p → start < p.time) →
      (∃ d tail, acc.samples = ⟨start, fill, d⟩ :: tail) →
      (∀ s ∈ acc.samples, s.time = start) →
      ∃ y : Signal,
        resizeLoop start e l prev acc = .ok y ∧
        (∃ d' tail', y.samples = ⟨start, fill, d'⟩ :: tail') ∧
        (∀ s ∈ y.samples,
          s.time = start ∨ (∃ u ∈ l, s.time = u.time ∧ start ≤ u.time ∧ u.time ≤ e) ∨
          (s.time = e ∧ ∃ u ∈ l, e < u.time)) := by
  intro l
  induction l with
  | nil =>
    intro prev acc _ _ hshape htimes
    exact ⟨acc, rfl, hshape, fun s hs => Or.inl (htimes s hs)⟩
  | cons i rest ih =>
    intro prev acc hl hprev hshape htimes
    obtain ⟨d, tail, hacc⟩ := hshape
    have hacc_end : acc.end_time = start := by
      unfold Signal.end_time
      rw [hacc, List.getLast?_eq_getLast _ (by simp)]
      simp only [Option.map_some', Option.getD_some]
      exact htimes _ (by rw [hacc]; exact List.getLast_mem _)
    have hstart_lt_i : start < i.time := hl i (List.mem_cons_self i rest)
    cases rest with
    | cons nxt rest2 =>
      have hA : nextCrosses (nxt :: rest2) start :=
        hl nxt (List.mem_cons_of_mem i (List.mem_cons_self nxt rest2))
      have hnlt : ¬ (⟨start, i.interpolate start, 0⟩ : Sample).time < acc.end_time := by
        rw [hacc_end]; exact lt_irrefl start
      have hpush := push_back_ok_eq acc ⟨start, i.interpolate start, 0⟩ hnlt
      have hshape' : ∃ d2 tail2,
          (Signal.mk (patchLast acc.samples ⟨start, i.interpolate start, 0⟩ ++
            [⟨start, i.interpolate start, 0⟩])).samples = ⟨start, fill, d2⟩ :: tail2 := by
        rw [hacc]
        exact head_shape_after_push start fill d tail _ _
      have htimes' : ∀ s ∈ (Signal.mk (patchLast acc.samples ⟨start, i.interpolate start, 0⟩ ++
          [⟨start, i.interpolate start, 0⟩])).samples, s.time = start := by
        intro s hs
        rcases push_back_times hpush s hs with ⟨w, hw, hwt⟩ | ht
        · exact hwt.trans (htimes w hw)
        · exact ht
      obtain ⟨y, hy, hyshape, hytimes⟩ :=
        ih (some i) ⟨patchLast acc.samples ⟨start, i.interpolate start, 0⟩ ++
            [⟨start, i.interpolate start, 0⟩]⟩
          (fun s hs => hl s (List.mem_cons_of_mem i hs))
          (fun p hp => by injection hp with hp; rw [← hp]; exact hstart_lt_i)
          hshape' htimes'
      refine ⟨y, ?_, hyshape, ?_⟩
      · simp only [resizeLoop]
        rw [if_pos hA, hpush]
        exact hy
      · intro s hs
        rcases hytimes s hs with h | ⟨u, hu, hh⟩ | ⟨he', u, hu, hue⟩
        · exact Or.inl h
        · exact Or.inr (Or.inl ⟨u, List.mem_cons_of_mem i hu, hh⟩)
        · exact Or.inr (Or.inr ⟨he', u, List.mem_cons_of_mem i hu, hue⟩)
    | nil =>
      have hnA : ¬ nextCrosses [] start := fun hf => hf
      by_cases hB : start ≤ i.time ∧ i.time ≤ e
      · have hnlt : ¬ i.time < acc.end_time := by
          rw [hacc_end]; exact not_lt.mpr hstart_lt_i.le
        have hpush := push_back_ok_eq acc i hnlt
        refine ⟨⟨patchLast acc.samples i ++ [⟨i.time, i.value, 0⟩]⟩, ?_, ?_, ?_⟩
        · simp only [resizeLoop]
          rw [if_neg hnA, if_pos hB, hpush]
          exact rfl
        · rw [hacc]
          exact head_shape_after_push start fill d tail _ _
        · intro s hs
          rcases push_back_times hpush s hs with ⟨w, hw, hwt⟩ | ht
          · exact Or.inl (hwt.trans (htimes w hw))
          · exact Or.inr (Or.inl ⟨i, List.mem_cons_self i [], ht, hB.1, hB.2⟩)
      · have hC : e < i.time := by
          rcases not_and_or.mp hB with h | h
          · exact absurd hstart_lt_i.le h
          · exact not_le.mp h
        cases prev with
        | none =>
          refine ⟨acc, ?_, ⟨d, tail, hacc⟩, fun s hs => Or.inl (htimes s hs)⟩
          simp only [resizeLoop]
          rw [if_neg hnA, if_neg hB, if_pos hC]
        | some p =>
          have hps : start < p.time := hprev p rfl
          by_cases hD : p.time < e
          · have hse : start < e := hps.trans hD
            have hnlt : ¬ (⟨e, p.interpolate e, 0⟩ : Sample).time < acc.end_time := by
              rw [hacc_end]; exact not_lt.mpr hse.le
            have hpush := push_back_ok_eq acc ⟨e, p.interpolate e, 0⟩ hnlt
            refine ⟨⟨patchLast acc.samples ⟨e, p.interpolate e, 0⟩ ++ [⟨e, p.interpolate e, 0⟩]⟩,
              ?_, ?_, ?_⟩
            · simp only [resizeLoop]
              rw [if_neg hnA, if_neg hB, if_pos hC, if_pos hD, hpush]
              exact rfl
            · rw [hacc]
              exact head_shape_after_push start fill d tail _ _
            · intro s hs
              rcases push_back_times hpush s hs with ⟨w, hw, hwt⟩ | ht
              · exact Or.inl (hwt.trans (htimes w hw))
              · exact Or.inr (Or.inr ⟨ht, i, List.mem_cons_self i [], hC⟩)
          · refine ⟨acc, ?_, ⟨d, tail, hacc⟩, fun s hs => Or.inl (htimes s hs)⟩
            simp only [resizeLoop]
            rw [if_neg hnA, if_neg hB, if_pos hC, if_neg hD]

/-- Claim C8: for `start` strictly before the signal's begin time,
`resize(start, e, fill)` succeeds, the result begins at `start`, its value
at `start` is `fill`, and when the original domain ends before `e` no
sample at (or beyond) time `e` is appended: every result sample is timed
strictly before `e`. -/
theorem C8_resize_left_fill (x : Signal) (start e fill : ℚ)
    (hsort : strictlyIncreasingTimes x.samples) (hstart : start < x.begin_time) :
    ∃ y : Signal, x.resize start e fill = .ok y ∧
      y.begin_time = start ∧
      (∃ s, y.atE start = .ok s ∧ s.time = start ∧ s.value = fill) ∧
      (x.end_time < e → ∀ s ∈ y.samples, s.time < e) := by
  have hl : ∀ s ∈ x.samples, start < s.time := by
    refine times_gt_start_of_chain start x.samples hsort ?_
    intro a ha
    have hba : x.begin_time = a.time := by simp [Signal.begin_time, ha]
    rw [← hba]
    exact hstart
  have hub : ∀ u ∈ x.samples, u.time ≤ x.end_time := by
    intro u hu
    have hne : x.samples ≠ [] := by
      intro hxe
      rw [hxe] at hu
      exact absurd hu (List.not_mem_nil u)
    obtain ⟨b, hbl⟩ : ∃ b, x.samples.getLast? = some b :=
      ⟨_, List.getLast?_eq_getLast _ hne⟩
    have hbe : x.end_time = b.time := by simp [Signal.end_time, hbl]
    rw [hbe]
    exact times_le_last_of_chain x.samples hsort u hu b hbl
  obtain ⟨y, hy, ⟨d', tail', hyshape⟩, hytimes⟩ :=
    resizeLoop_left_extend start e fill x.samples none ⟨[⟨start, fill, 0⟩]⟩ hl
      (fun p hp => Option.noConfusion hp) ⟨0, [], rfl⟩
      (by
        intro s hs
        rcases List.mem_singleton.mp hs with rfl
        rfl)
  refine ⟨y, ?_, ?_, ?_, ?_⟩
  · unfold Signal.resize
    rw [if_pos hstart]
    exact hy
  · simp [Signal.begin_time, hyshape]
  · exact ⟨⟨start, fill, d'⟩, atE_at_head hyshape, rfl, rfl⟩
  · intro hee s hs
    have hstart_lt_e : start < e := by
      cases hxs : x.samples with
      | nil =>
        have hb0 : x.begin_time = 0 := by simp [Signal.begin_time, hxs]
        have he0 : x.end_time = 0 := by simp [Signal.end_time, hxs]
        rw [hb0] at hstart
        rw [he0] at hee
        exact hstart.trans hee
      | cons a rest =>
        have hba : x.begin_time = a.time := by simp [Signal.begin_time, hxs]
        have hmem : a ∈ x.samples := by rw [hxs]; exact List.mem_cons_self a rest
        calc start < a.time := by rw [← hba]; exact hstart
          _ ≤ x.end_time := hub a hmem
          _ < e := hee
    rcases hytimes s hs with h | ⟨u, hu, ht, _, _⟩ | ⟨_, u, hu, hue⟩
    · rw [h]; exact hstart_lt_e
    · rw [ht]
      exact (hub u hu).trans_lt hee
    · exact absurd (hue.trans_le ((hub u hu).trans hee.le)) (lt_irrefl e)

/-- Witness for C8: resizing the signal `[(0,0),(2,4)]` to `[-1, 3]` with
fill 5 begins at -1 with value 5 and appends no trailing sample at 3. -/
theorem C8_witness :
    ∃ y : Signal, (Signal.mk [⟨0,0,1⟩, ⟨2,4,0⟩]).resize (-1) 3 5 = .ok y ∧
      y.begin_time = -1 ∧
      (∃ s, y.atE (-1) = .ok s ∧ s.time = -1 ∧ s.value = 5) ∧
      ((Signal.mk [⟨0,0,1⟩, ⟨2,4,0⟩]).end_time < 3 → ∀ s ∈ y.samples, s.time < 3) :=
  C8_resize_left_fill ⟨[⟨0,0,1⟩, ⟨2,4,0⟩]⟩ (-1) 3 5
    (by norm_num [strictlyIncreasingTimes])
    (by norm_num [Signal.begin_time])

/-- Claim C9: `simplify` is claimed to be value-preserving:
`simplify(x).at(t) == x.at(t)` on the domain.  For the signal built by
pushing `(0,1), (1,1), (2,1), (3,9)`, `simplify` drops the sample `(1,1)`
(flat segment), and at `t = 1/2` the original signal's `at` yields value 1
while the simplified signal's `at` yields value -11: because `at`
extrapolates backwards from the sample at-or-after `t`, dropping a sample
changes the answer. -/
theorem C9_simplify_not_value_preserving :
    pushList ⟨[]⟩ [⟨0,1,0⟩, ⟨1,1,0⟩, ⟨2,1,0⟩, ⟨3,9,0⟩] =
      .ok ⟨[⟨0,1,0⟩, ⟨1,1,0⟩, ⟨2,1,8⟩, ⟨3,9,0⟩]⟩ ∧
    (Signal.mk [⟨0,1,0⟩, ⟨1,1,0⟩, ⟨2,1,8⟩, ⟨3,9,0⟩]).simplify =
      .ok ⟨[⟨0,1,0⟩, ⟨2,1,8⟩, ⟨3,9,0⟩]⟩ ∧
    (Signal.mk [⟨0,1,0⟩, ⟨1,1,0⟩, ⟨2,1,8⟩, ⟨3,9,0⟩]).atE (1/2) = .ok ⟨1/2,1,0⟩ ∧
    (Signal.mk [⟨0,1,0⟩, ⟨2,1,8⟩, ⟨3,9,0⟩]).atE (1/2) = .ok ⟨1/2,-11,8⟩ ∧
    (1 : ℚ) ≠ -11 := by
  refine ⟨?_, ?_, ?_, ?_, by norm_num⟩ <;>
    norm_num [pushList, Signal.simplify, simplifyLoop, Signal.atE, Signal.begin_time,
      Signal.end_time, Signal.push_back, patchLast, lowerBoundIdx, Sample.interpolate,
      bind, Except.bind, pure, Except.pure]

end SignalTL
